import Mathlib

/-!
Verification development for the cell-discretization core of the `arbor`
repository.  The repository snapshot carries the unit tests
(`src/main.cpp`, `src/test/unit/test_fvm_layout.cpp`) and the cell header
(`src/src/cell.hpp`); the bodies of `fvm_discretize`,
`fvm_build_mechanism_data`, `tree::change_root` and the `cell_tree`
constructor are not part of the snapshot, so those operations are modelled
here from the specification (marked `Modelled from the spec:`), restricted
to the constant-radius cables used by every scenario.  `cell::add_cable`
is embedded directly from `src/src/cell.hpp`.
-/

attribute [local semireducible] Rat.add Rat.mul Rat.inv Rat.sub

namespace Arbor

/-- Modelled from the spec: a cable segment of the FVM input (the
implementation of `fvm_discretize` is not in the snapshot).  Following the
scenarios of the spec ("stick models have constant diameter segments"),
the cable is a constant-radius frustum chain: parent segment index within
the cell (0 is the soma), compartment count, total length [µm], radius
[µm], and the specific membrane capacitance painted on it [F/m²]. -/
structure Cable where
  parent : Nat
  ncomp : Nat
  len : ℚ
  radius : ℚ
  cm : ℚ
deriving DecidableEq, Inhabited

/-- Modelled from the spec: a cable cell as consumed by `fvm_discretize` —
a spherical soma plus cable segments whose parent array is
predecessor-referring, with the painted capacitances and the cell's axial
resistivity [Ω·cm]. -/
structure CellD where
  somaRadius : ℚ
  somaCm : ℚ
  rL : ℚ
  cables : List Cable
deriving DecidableEq, Inhabited

/-- Per-segment record of the discretization: `has_parent`, `parent_cv`
and the half-open CV range owned by the segment, excluding the parent
junction CV. -/
structure SegRec where
  hasParent : Bool
  parent_cv : Nat
  cvStart : Nat
  cvEnd : Nat
deriving DecidableEq, Inhabited

/-- State threaded through the per-cell discretization: next free CV
index (absolute), the parent entries, area / capacitance / face
conductance entries for the CVs of this cell (index `i` is CV `base+i`),
segment records, the distal node CV of every processed cable, and the
junction CV on the soma surface once a cable has attached there. -/
structure CState where
  next : Nat
  par : List Nat
  cvarea : List ℚ
  cvcap : List ℚ
  fcond : List ℚ
  segs : List SegRec
  distal : List Nat
  somaJ : Option Nat
deriving DecidableEq, Inhabited

/-- Parent entries for the owned node CVs of a cable with `n`
compartments: the first owned node's parent is the junction CV `j`, and
every further node's parent is the preceding node (`t` is the CV index of
the first owned node). -/
def nodeParents (j t n : Nat) : List Nat :=
  (List.range n).map (fun i => if i = 0 then j else t + i - 1)

/-- Lateral-area contributions of the owned node CVs of a cable with `n`
compartments, where `h` is the half-compartment lateral area: interior
nodes collect two adjacent halves, the distal node starts with one. -/
def nodeAreas (n : Nat) (h : ℚ) : List ℚ :=
  (List.range n).map (fun i => if i + 1 = n then h else 2 * h)

/-- Add `x` to entry `i` of an accumulator list. -/
def addAt (l : List ℚ) (i : Nat) (x : ℚ) : List ℚ :=
  l.set i (l.getD i 0 + x)

/-- Modelled from the spec: face conductance of a CV towards its parent,
`a / (h · rL) · 100` with `a` the axial cross-section `π r²` [µm²] and
`h` the centre-to-centre node distance `len / ncomp` [µm]; the factor 100
normalizes to µS.  `p` stands for the value of π. -/
def faceG (p rL : ℚ) (cb : Cable) : ℚ :=
  p * cb.radius ^ 2 / (cb.len / (cb.ncomp : ℚ) * rL) * 100

/-- Safe list lookup used for the distal-CV table. -/
def listGet : List Nat → Nat → Option Nat
  | [], _ => none
  | x :: _, 0 => some x
  | _ :: l, i + 1 => listGet l i

/-- The junction CV a cable attaches to, when it already exists: the
distal node of a cable parent, or the soma-surface junction CV if an
earlier sibling already created it. -/
def junctionOf (st : CState) (cb : Cable) : Option Nat :=
  if cb.parent = 0 then st.somaJ else listGet st.distal (cb.parent - 1)

/-- Discretize one cable whose junction CV `j` already exists: append its
`ncomp` owned node CVs, add the left half of its first compartment to the
junction CV, and record its segment. -/
def stepHave (p rL : ℚ) (base : Nat) (st : CState) (cb : Cable) (j : Nat) : CState :=
  let n := cb.ncomp
  let h := p * cb.radius * cb.len / (n : ℚ)
  let g := faceG p rL cb
  { next := st.next + n
    par := st.par ++ nodeParents j st.next n
    cvarea := addAt st.cvarea (j - base) h ++ nodeAreas n h
    cvcap := addAt st.cvcap (j - base) (h * cb.cm) ++ (nodeAreas n h).map (fun a => a * cb.cm)
    fcond := st.fcond ++ List.replicate n g
    segs := st.segs ++ [⟨true, j, st.next, st.next + n⟩]
    distal := st.distal ++ [if n = 0 then j else st.next + n - 1]
    somaJ := st.somaJ }

/-- Discretize one cable that creates a fresh junction CV (first cable on
its parent end, e.g. on the soma surface): allocate the junction CV with
the soma as parent, then the `ncomp` owned node CVs. -/
def stepFresh (p rL : ℚ) (base : Nat) (st : CState) (cb : Cable) : CState :=
  let n := cb.ncomp
  let h := p * cb.radius * cb.len / (n : ℚ)
  let g := faceG p rL cb
  { next := st.next + 1 + n
    par := st.par ++ base :: nodeParents st.next (st.next + 1) n
    cvarea := st.cvarea ++ (if n = 0 then 0 else h) :: nodeAreas n h
    cvcap := st.cvcap ++ (if n = 0 then 0 else h * cb.cm) :: (nodeAreas n h).map (fun a => a * cb.cm)
    fcond := st.fcond ++ g :: List.replicate n g
    segs := st.segs ++ [⟨true, st.next, st.next + 1, st.next + 1 + n⟩]
    distal := st.distal ++ [st.next + n]
    somaJ := if cb.parent = 0 then some st.next else st.somaJ }

/-- Modelled from the spec: CV layout step for one cable, in segment
order.  CVs are centred on the nodes of the compartmental graph; the
node at the proximal end is shared with the parent end when it already
exists (scenario S2 locks this convention). -/
def stepCable (p rL : ℚ) (base : Nat) (st : CState) (cb : Cable) : CState :=
  match junctionOf st cb with
  | some j => stepHave p rL base st cb j
  | none => stepFresh p rL base st cb

/-- Fold the cable layout over the cell's cables in insertion order. -/
def discCables (p rL : ℚ) (base : Nat) : CState → List Cable → CState
  | st, [] => st
  | st, cb :: l => discCables p rL base (stepCable p rL base st cb) l

/-- Initial per-cell state: the soma occupies exactly one CV (index
`base`), its own parent, carrying the full sphere area `4 π r²`. -/
def initCell (p : ℚ) (base : Nat) (cd : CellD) : CState :=
  { next := base + 1
    par := [base]
    cvarea := [4 * p * cd.somaRadius ^ 2]
    cvcap := [4 * p * cd.somaRadius ^ 2 * cd.somaCm]
    fcond := [0]
    segs := [⟨false, base, base, base + 1⟩]
    distal := []
    somaJ := none }

/-- Discretize one cell starting at CV index `base`. -/
def discretizeCell (p : ℚ) (base : Nat) (cd : CellD) : CState :=
  discCables p cd.rL base (initCell p base cd) cd.cables

/-- FVM discretization record (spec §3): counts, `parent_cv`,
`cv_to_cell`, the per-CV coefficient vectors, per-segment records, and
the first CV of every cell (`cell_cv_bounds`). -/
structure Disc where
  ncell : Nat
  ncv : Nat
  parent_cv : List Nat
  cv_to_cell : List Nat
  cv_area : List ℚ
  cv_capacitance : List ℚ
  face_conductance : List ℚ
  segments : List SegRec
  cellStart : List Nat
deriving DecidableEq, Inhabited

def emptyDisc : Disc := ⟨0, 0, [], [], [], [], [], [], []⟩

/-- Append one cell to the discretization record. -/
def addCell (p : ℚ) (acc : Disc) (cd : CellD) : Disc :=
  let st := discretizeCell p acc.ncv cd
  { ncell := acc.ncell + 1
    ncv := st.next
    parent_cv := acc.parent_cv ++ st.par
    cv_to_cell := acc.cv_to_cell ++ List.replicate st.par.length acc.ncell
    cv_area := acc.cv_area ++ st.cvarea
    cv_capacitance := acc.cv_capacitance ++ st.cvcap
    face_conductance := acc.face_conductance ++ st.fcond
    segments := acc.segments ++ st.segs
    cellStart := acc.cellStart ++ [acc.ncv] }

/-- Modelled from the spec: `fvm_discretize` (its implementation is not
in the snapshot) — flatten a vector of cells into one contiguous CV index
space, numbering CVs contiguously across cells in cell order, within a
cell in segment order, within a segment from proximal to distal. -/
def fvm_discretize (p : ℚ) (cells : List CellD) : Disc :=
  cells.foldl (addCell p) emptyDisc

/-- Segment table of one cell: `none` for the soma, then
`some (rL, cable)` for each cable segment in order. -/
def cellSegInfo (cd : CellD) : List (Option (ℚ × Cable)) :=
  none :: cd.cables.map (fun cb => some (cd.rL, cb))

/-- Global segment table of the input: one `none` per soma, and
`some (rL, cable)` for each cable segment, in cell-then-segment order,
aligned with `Disc.segments`. -/
def cellsSegInfo : List CellD → List (Option (ℚ × Cable))
  | [] => []
  | cd :: rest => cellSegInfo cd ++ cellsSegInfo rest

/-- A valid input: every cable's parent precedes it (parent of cable `k`
is a segment index `≤ k`, segment `k+1` being the cable itself) and every
cable has at least one compartment. -/
def validCells (cells : List CellD) : Bool :=
  cells.all (fun cd =>
    (List.range cd.cables.length).all (fun k =>
      decide ((cd.cables.getD k default).parent ≤ k) &&
      decide (1 ≤ (cd.cables.getD k default).ncomp)))

/-- Rational stand-in for π used when evaluating the model on concrete
scenarios; every claim proved with it is linear or location-only in π. -/
def piQ : ℚ := 355 / 113

/-- Cylinder lateral area `2 π r len` of a constant-radius cable. -/
def latArea (p r len : ℚ) : ℚ := 2 * p * r * len

/-- Cell A of scenario S2: soma plus one 200-µm cable of 4 compartments
(the ball-and-stick cell of the tests). -/
def cableA : Cable := ⟨0, 4, 200, 1/2, 1/100⟩

def cellA : CellD := ⟨63/20, 1/100, 100, [cableA]⟩

/-- Cell B of scenario S2 (and the cell of scenario S3): soma plus three
cables of 4 compartments each, cables 2 and 3 attached to the distal end
of cable 1, with painted capacitances 0.017, 0.013, 0.018 F/m² and axial
resistivity 90 Ω·cm. -/
def cellB : CellD :=
  ⟨7, 1/100, 90,
   [⟨0, 4, 200, 1/2, 17/1000⟩, ⟨1, 4, 300, 2/5, 13/1000⟩, ⟨1, 4, 180, 7/20, 18/1000⟩]⟩

/-- Floor of a nonnegative rational as a natural number. -/
def qfloorNat (q : ℚ) : Nat := q.num.toNat / q.den

/-- A point-mechanism placement: location `(branch, 0 ≤ pos ≤ 1)`, the
mechanism name and its parameter overrides in set order. -/
structure Placement where
  branch : Nat
  pos : ℚ
  mech : String
  params : List (String × ℚ)
deriving DecidableEq, Inhabited

/-- One entry of a point-mechanism configuration: its CV, the target
indices it stands for (the multiplicity is their count), and the
parameter values. -/
structure PEntry where
  cv : Nat
  targets : List Nat
  params : List (String × ℚ)
deriving DecidableEq, Inhabited

def multiplicity (e : PEntry) : Nat := e.targets.length

/-- Modelled from the spec: map a location `(branch, pos)` to the CV
containing it, by arc length along the cable — the nearest node of the
compartmental graph, the proximal node being the segment's parent CV. -/
def locToCV (D : Disc) (branch : Nat) (pos : ℚ) : Nat :=
  let sr := D.segments.getD branch default
  let n := sr.cvEnd - sr.cvStart
  let k := qfloorNat (pos * (n : ℚ) + 1/2)
  if k = 0 then sr.parent_cv else sr.cvStart + (k - 1)

/-- Insert a placement into the coalescing group list: groups are keyed
by `(cv, parameter values)`; a matching group collects the target index,
otherwise a fresh group is appended. -/
def insertPlacement (cv : Nat) (ps : List (String × ℚ)) (idx : Nat) :
    List PEntry → List PEntry
  | [] => [⟨cv, [idx], ps⟩]
  | e :: l =>
    if e.cv = cv ∧ e.params = ps then ⟨e.cv, e.targets ++ [idx], e.params⟩ :: l
    else e :: insertPlacement cv ps idx l

/-- Pair each placement with its target index (its ordinal in the
placement list). -/
def withIdx (i : Nat) : List Placement → List (Nat × Placement)
  | [] => []
  | pl :: l => (i, pl) :: withIdx (i + 1) l

/-- Group the placements of one mechanism by `(cv, parameter values)`,
in placement order. -/
def groupPlacements (D : Disc) (mech : String) (pls : List Placement) : List PEntry :=
  ((withIdx 0 pls).filter (fun ip => decide (ip.2.mech = mech))).foldl
    (fun acc ip => insertPlacement (locToCV D ip.2.branch ip.2.pos) ip.2.params ip.1 acc) []

/-- Lexicographic order on parameter lists: by name, then by value. -/
def lexLeQ : List (String × ℚ) → List (String × ℚ) → Bool
  | [], _ => true
  | _ :: _, [] => false
  | a :: l, b :: m =>
    if a.1 ≠ b.1 then decide (a.1 < b.1)
    else if a.2 ≠ b.2 then decide (a.2 < b.2)
    else lexLeQ l m

def entryLe (e f : PEntry) : Bool :=
  decide (e.cv < f.cv) || (decide (e.cv = f.cv) && lexLeQ e.params f.params)

def insertEntry (e : PEntry) : List PEntry → List PEntry
  | [] => [e]
  | f :: l => if entryLe e f then e :: f :: l else f :: insertEntry e l

def sortEntries (l : List PEntry) : List PEntry := l.foldr insertEntry []

/-- Modelled from the spec: the point-mechanism part of
`fvm_build_mechanism_data` (not in the snapshot) for one mechanism name.
With `coalesce = true`, placements sharing `(cv, mechanism name, all
parameter values)` form one entry whose multiplicity is the group size
and whose targets are the group's ordinals in ascending order; entries
are sorted by CV, then by parameter values.  Without coalescing every
placement yields its own entry. -/
def fvm_point_mechanism (coalesce : Bool) (D : Disc) (pls : List Placement)
    (mech : String) : List PEntry :=
  if coalesce then sortEntries (groupPlacements D mech pls)
  else
    sortEntries (((withIdx 0 pls).filter (fun ip => decide (ip.2.mech = mech))).map
      (fun ip => ⟨locToCV D ip.2.branch ip.2.pos, [ip.1], ip.2.params⟩))

/-- The placement list of scenario S4: four identical `expsyn(e=0,
tau=0.2)` at branch 1 position 0.3, one `expsyn(e=0.1, tau=0.2)` at the
same location, one `expsyn(e=0.1, tau=0.2)` at branch 1 position 0.7. -/
def plS4 : List Placement :=
  [⟨1, 3/10, ("expsyn"), [(("e"), 0), (("tau"), 1/5)]⟩,
   ⟨1, 3/10, ("expsyn"), [(("e"), 0), (("tau"), 1/5)]⟩,
   ⟨1, 3/10, ("expsyn"), [(("e"), 0), (("tau"), 1/5)]⟩,
   ⟨1, 3/10, ("expsyn"), [(("e"), 0), (("tau"), 1/5)]⟩,
   ⟨1, 3/10, ("expsyn"), [(("e"), 1/10), (("tau"), 1/5)]⟩,
   ⟨1, 7/10, ("expsyn"), [(("e"), 1/10), (("tau"), 1/5)]⟩]

/-- Errors surfaced by the mechanism-data build (spec §7). -/
inductive BuildErr
  | revpot_mismatch
  | unknown_ion
  | ion_valence_mismatch
deriving DecidableEq

/-- Association-list lookup by name. -/
def assoc {α : Type} (k : String) : List (String × α) → Option α
  | [] => none
  | kv :: l => if kv.1 = k then some kv.2 else assoc k l

/-- Modelled from the spec: ion validation of the mechanism-data build
(not in the snapshot).  For each ion an instantiated mechanism reads or
writes (with an optional declared valence): fail with `unknown_ion` if
the ion is absent from the global ion-species table, fail with
`ion_valence_mismatch` if a declared valence disagrees with the table. -/
def verifyIonUsage (species : List (String × Int)) :
    List (String × Option Int) → Option BuildErr
  | [] => none
  | u :: rest =>
    match assoc u.1 species with
    | none => some BuildErr.unknown_ion
    | some z =>
      match u.2 with
      | some v => if v ≠ z then some BuildErr.ion_valence_mismatch else verifyIonUsage species rest
      | none => verifyIonUsage species rest

/-- Per-cell reversal-potential data: the per-ion
`reversal_potential_method` assignment in force on the cell, and the
pairs `(ion, cv)` at which some mechanism on the cell reads that ion's
reversal potential. -/
structure RevCell where
  method : List (String × String)
  readsRev : List (String × Nat)
deriving DecidableEq

/-- The ions whose reversal potentials mechanism `m` writes. -/
def writesOf (writes : List (String × List String)) (m : String) : List String :=
  (assoc m writes).getD []

/-- A cell's reversal-potential assignment is consistent: whenever an ion
is served by mechanism `M`, every ion that `M` writes is also assigned to
`M` on that cell. -/
def revpotOK (writes : List (String × List String)) (c : RevCell) : Bool :=
  c.method.all (fun im =>
    (writesOf writes im.2).all (fun x => decide (assoc x c.method = some im.2)))

def insertSorted (x : Nat) : List Nat → List Nat
  | [] => [x]
  | y :: l =>
    if x < y then x :: y :: l else if x = y then y :: l else y :: insertSorted x l

def sortDedup (l : List Nat) : List Nat := l.foldr insertSorted []

/-- CVs on which mechanism `m` must be instantiated: exactly those where
some other mechanism reads the reversal potential of an ion that `m`
writes and that is assigned to `m` on that cell. -/
def revpotCVs (writes : List (String × List String)) (cells : List RevCell)
    (m : String) : List Nat :=
  sortDedup (cells.foldr (fun c acc =>
    (c.readsRev.filterMap (fun xcv =>
      if (writesOf writes m).contains xcv.1 ∧ assoc xcv.1 c.method = some m
      then some xcv.2 else none)) ++ acc) [])

/-- Modelled from the spec: the reversal-potential provider part of
`fvm_build_mechanism_data` (not in the snapshot) for one mechanism —
validate the multi-ion consistency of the assignment on every cell
(`revpot_mismatch` otherwise), then instantiate the mechanism only on
the CVs that need it. -/
def fvm_build_revpot (writes : List (String × List String)) (cells : List RevCell)
    (m : String) : Except BuildErr (List Nat) :=
  if cells.all (revpotOK writes) then Except.ok (revpotCVs writes cells m)
  else Except.error BuildErr.revpot_mismatch

/-- The cell of scenario S6: soma of radius 5 plus three 1-compartment
dendrites, cables 2 and 3 off the distal end of cable 1. -/
def cellS6 : CellD :=
  ⟨5, 1/100, 100,
   [⟨0, 1, 100, 1/2, 1/100⟩, ⟨1, 1, 200, 1/2, 1/100⟩, ⟨1, 1, 100, 1/2, 1/100⟩]⟩

/-- Scenario S6 write table: `write_eb_ec` writes the reversal potentials
of ions `b` and `c`. -/
def writesS6 : List (String × List String) := [(("write_eb_ec"), [("b"), ("c")])]

/-- First CV of cell 1 (the second soma) in the two-cell population of
scenario S6. -/
def soma1S6 : Nat := (fvm_discretize piQ [cellS6, cellS6]).cellStart.getD 1 0

/-- Cell 0 of scenario S6: no reversal-potential method for `b` or `c`,
and no mechanism reading `eb`. -/
def rcell0 : RevCell := ⟨[], []⟩

/-- Cell 1 of scenario S6 with the inconsistent assignment: only ion `b`
is served by `write_eb_ec`; its soma reads `eb`. -/
def rcell1bad : RevCell :=
  ⟨[(("b"), ("write_eb_ec"))], [(("b"), soma1S6)]⟩

/-- Cell 1 of scenario S6 with the consistent assignment: ions `b` and
`c` both served by `write_eb_ec`; its soma reads `eb`. -/
def rcell1good : RevCell :=
  ⟨[(("b"), ("write_eb_ec")), (("c"), ("write_eb_ec"))], [(("b"), soma1S6)]⟩

/-- Parent entries of one cell are well formed relative to its first CV
`base`: entry 0 (the soma) is its own parent, and every further entry
points strictly below its own CV but inside the cell. -/
def ParOK (base : Nat) (l : List Nat) : Prop :=
  ∀ i, i < l.length →
    (i = 0 → l.getD i 0 = base) ∧ (1 ≤ i → base ≤ l.getD i 0 ∧ l.getD i 0 < base + i)

/-- Invariant of the per-cell discretization state. -/
structure SInv (base : Nat) (st : CState) : Prop where
  hnext : st.next = base + st.par.length
  hpos : 1 ≤ st.par.length
  hflen : st.fcond.length = st.par.length
  hpar : ParOK base st.par
  hdist : ∀ d, d ∈ st.distal → base ≤ d ∧ d < st.next
  hsoma : ∀ j, st.somaJ = some j → base ≤ j ∧ j < st.next

/-- A cable's segment record is faithful in state `st`: it has a parent,
owns `ncomp` CVs inside the cell, and each owned CV's face conductance is
the spec's formula for this cable. -/
def SegSpec (p rL : ℚ) (base : Nat) (st : CState) (sr : SegRec) (cb : Cable) : Prop :=
  sr.hasParent = true ∧
  sr.cvEnd = sr.cvStart + cb.ncomp ∧
  base ≤ sr.cvStart ∧
  sr.cvEnd ≤ base + st.fcond.length ∧
  ∀ i, i < cb.ncomp → st.fcond.getD (sr.cvStart + i - base) 0 = faceG p rL cb

/-- Outcome of folding the cable layout over `l` from state `st`: the
invariant persists, the already-written entries persist, and every new
segment record is faithful to its cable. -/
structure FoldOut (p rL : ℚ) (base : Nat) (st : CState) (l : List Cable) (st2 : CState) :
    Prop where
  inv : SInv base st2
  monoPar : st.par.length ≤ st2.par.length
  monoF : st.fcond.length ≤ st2.fcond.length
  prePar : ∀ i, i < st.par.length → st2.par.getD i 0 = st.par.getD i 0
  preF : ∀ i, i < st.fcond.length → st2.fcond.getD i 0 = st.fcond.getD i 0
  segLen : st2.segs.length = st.segs.length + l.length
  preSegs : ∀ i, i < st.segs.length → st2.segs.getD i default = st.segs.getD i default
  segNew : ∀ k, k < l.length →
    SegSpec p rL base st2 (st2.segs.getD (st.segs.length + k) default) (l.getD k default)

/-- Well-formedness of an accumulated discretization record. -/
structure DiscOK (acc : Disc) : Prop where
  hp : acc.parent_cv.length = acc.ncv
  hf : acc.face_conductance.length = acc.ncv
  hs : ∀ x, x ∈ acc.cellStart → x < acc.ncv

/-- Outcome of folding `addCell` over `cells` from accumulator `acc`. -/
structure GOut (p : ℚ) (acc : Disc) (cells : List CellD) (D : Disc) : Prop where
  ok : DiscOK D
  mono : acc.ncv ≤ D.ncv
  monoPar : acc.parent_cv.length ≤ D.parent_cv.length
  monoF : acc.face_conductance.length ≤ D.face_conductance.length
  monoSegs : acc.segments.length ≤ D.segments.length
  prePar : ∀ i, i < acc.parent_cv.length → D.parent_cv.getD i 0 = acc.parent_cv.getD i 0
  preF : ∀ i, i < acc.face_conductance.length →
    D.face_conductance.getD i 0 = acc.face_conductance.getD i 0
  segLen : D.segments.length = acc.segments.length + (cellsSegInfo cells).length
  preSegs : ∀ i, i < acc.segments.length → D.segments.getD i default = acc.segments.getD i default
  starts : ∃ tl, D.cellStart = acc.cellStart ++ tl ∧ ∀ x, x ∈ tl → acc.ncv ≤ x ∧ x < D.ncv
  parOk : ∀ c, acc.ncv ≤ c → c < D.ncv →
    D.parent_cv.getD c 0 ≤ c ∧ (D.parent_cv.getD c 0 = c ↔ c ∈ D.cellStart)
  segOk : ∀ k rl cb, (cellsSegInfo cells).getD k none = some (rl, cb) →
    (D.segments.getD (acc.segments.length + k) default).cvEnd
      = (D.segments.getD (acc.segments.length + k) default).cvStart + cb.ncomp ∧
    (D.segments.getD (acc.segments.length + k) default).cvEnd ≤ D.ncv ∧
    ∀ i, i < cb.ncomp →
      D.face_conductance.getD
        ((D.segments.getD (acc.segments.length + k) default).cvStart + i) 0
        = faceG p rl cb

end Arbor

namespace Arbor.Tree

/-- Children of node `v` in a parent-index array. -/
def childrenOf (par : List Nat) (v : Nat) : List Nat :=
  (List.range par.length).filter (fun i => decide (par.getD i 0 = v) && decide (i ≠ v))

def num_children (par : List Nat) (v : Nat) : Nat := (childrenOf par v).length

def num_nodes (par : List Nat) : Nat := par.length

/-- Undirected neighbours of `v`: its children in stable order, then its
parent (the root, with `par v = v`, has no parent edge). -/
def neighbors (par : List Nat) (v : Nat) : List Nat :=
  childrenOf par v ++ (if par.getD v v = v then [] else [par.getD v v])

def concatMap (f : Nat → List Nat) : List Nat → List Nat
  | [] => []
  | x :: l => f x ++ concatMap f l

/-- Depth-first preorder of the tree viewed from `v`, never walking back
through the node we came from; `fuel` bounds the path length. -/
def dfsOrder (par : List Nat) : Nat → Nat → Nat → List Nat
  | 0, _, _ => []
  | fuel + 1, v, from0 =>
    v :: concatMap (fun w => dfsOrder par fuel w v)
      ((neighbors par v).filter (fun w => decide (w ≠ from0)))

/-- Index of the first occurrence of `v` (its new number). -/
def idxOf (v : Nat) : List Nat → Nat
  | [] => 0
  | x :: l => if x = v then 0 else 1 + idxOf v l

/-- Ancestor path from `v` up to the root. -/
def ancPath (par : List Nat) : Nat → Nat → List Nat
  | 0, v => [v]
  | fuel + 1, v => if par.getD v v = v then [v] else v :: ancPath par fuel (par.getD v v)

/-- Parent of node `v` (old numbering) in the tree rerooted at `j`: along
the reversed path from the old root to `j` each ex-parent becomes the
child of its ex-child; every other node keeps its parent. -/
def newParentOld (par : List Nat) (j v : Nat) : Nat :=
  let path := ancPath par par.length j
  if path.contains v then
    (if idxOf v path = 0 then v else path.getD (idxOf v path - 1) v)
  else par.getD v v

/-- New index of old node `v` after rerooting at `j` (DFS renumbering). -/
def newIdx (par : List Nat) (j v : Nat) : Nat := idxOf v (dfsOrder par par.length j j)

/-- Modelled from the spec: `tree::change_root` (not in the snapshot) —
reverse the unique path from the root to `j`, attach each ex-parent as a
child of its ex-child along that path, then renumber the nodes by DFS
from `j` emitting children in stable order, `j` becoming index 0. -/
def change_root (par : List Nat) (j : Nat) : List Nat :=
  (List.range par.length).map (fun i =>
    if i = 0 then 0
    else newIdx par j (newParentOld par j ((dfsOrder par par.length j j).getD i 0)))

/-- The parent array of scenario S1. -/
def exTree : List Nat := [0, 0, 0, 1, 1, 4, 4]

end Arbor.Tree

namespace Arbor.CellTree

/-- Modelled from the spec: the segment decomposition performed by the
`cell_tree` constructor (not in the snapshot) — unbranched runs of nodes
collapse into single segments.  A node starts a segment exactly when its
parent is the root or a branch point (two or more children); the root
node is always its own segment. -/
def segStarts (par : List Nat) : List Nat :=
  (List.range par.length).filter (fun i =>
    decide (i ≠ 0) &&
    (decide (par.getD i 0 = 0) || decide (2 ≤ Tree.num_children par (par.getD i 0))))

/-- Number of segments of the `cell_tree` built from a parent array (an
empty array normalizes to the single-node tree). -/
def num_segments (par : List Nat) : Nat := 1 + (segStarts par).length

/-- The unbranched run of nodes starting at `v`: follow single children. -/
def runFrom (par : List Nat) : Nat → Nat → List Nat
  | 0, v => [v]
  | fuel + 1, v =>
    match Tree.childrenOf par v with
    | [c] => v :: runFrom par fuel c
    | _ => [v]

/-- Node sets of the segments, segment 0 being the root's. -/
def segNodeSets (par : List Nat) : List (List Nat) :=
  [0] :: (segStarts par).map (fun s => runFrom par par.length s)

/-- Children count of segment `k`: the segments whose starting node's
parent lies in segment `k`. -/
def num_children (par : List Nat) (k : Nat) : Nat :=
  ((segStarts par).filter
    (fun s => ((segNodeSets par).getD k []).contains (par.getD s 0))).length

/-- First parent array of the implicit-claim test: 6 nodes, two
unbranched chains off the root. -/
def parC9a : List Nat := [0, 0, 1, 2, 0, 4]

/-- Second parent array of the implicit-claim test: 10 nodes, three
unbranched chains off the root. -/
def parC9b : List Nat := [0, 0, 1, 2, 0, 4, 0, 6, 7, 8]

end Arbor.CellTree

namespace Arbor.NM

/-- Tag of a cell segment (`nest::mc` segment variants). -/
inductive SegKind
  | soma
  | cable
deriving DecidableEq

inductive CellErr
  | out_of_range
deriving DecidableEq

/-- The `nest::mc::cell` state embedded from `src/src/cell.hpp`: the
parent index per segment (`parents_`) and the segments (`segments_`),
the cable contents abstracted to their tag. -/
structure MCell where
  parents_ : List Int
  segments_ : List SegKind
deriving DecidableEq

/-- `cell::num_segments`. -/
def num_segments (c : MCell) : Int := c.segments_.length

/-- `cell::add_cable(parent, args...)` from `src/src/cell.hpp`: if
`parent >= num_segments()` throw `std::out_of_range` — at that point
neither member has been touched, so the returned state is the original
cell — otherwise push the new cable and the parent index. -/
def add_cable (c : MCell) (parent : Int) : Option CellErr × MCell :=
  if num_segments c ≤ parent then (some CellErr.out_of_range, c)
  else (none, ⟨c.parents_ ++ [parent], c.segments_ ++ [SegKind.cable]⟩)

end Arbor.NM

namespace Arbor

theorem getD_append_lt {α : Type} (l1 l2 : List α) (d : α) (i : Nat) (h : i < l1.length) :
    (l1 ++ l2).getD i d = l1.getD i d := by
  simp [List.getD_eq_getElem?_getD, List.getElem?_append_left h]

theorem getD_append_add {α : Type} (l1 l2 : List α) (d : α) (i : Nat) :
    (l1 ++ l2).getD (l1.length + i) d = l2.getD i d := by
  simp [List.getD_eq_getElem?_getD, List.getElem?_append_right (Nat.le_add_right l1.length i)]

theorem getD_replicate_lt (n i : Nat) (a : ℚ) (h : i < n) :
    (List.replicate n a).getD i 0 = a := by
  simp [List.getD_eq_getElem?_getD, List.getElem?_replicate, h]

theorem getD_map_lt {α β : Type} [Inhabited α] (l : List α) (f : α → β) (k : Nat) (d : β)
    (h : k < l.length) : (l.map f).getD k d = f (l.getD k default) := by
  induction l generalizing k with
  | nil => simp at h
  | cons a l ih =>
    cases k with
    | zero => simp
    | succ k => simpa using ih k (by simpa using h)

theorem getD_append_len {α : Type} (l1 l2 : List α) (d : α) :
    (l1 ++ l2).getD l1.length d = l2.getD 0 d := by
  have := getD_append_add l1 l2 d 0
  simpa using this

theorem getD_ge {α : Type} (l : List α) (k : Nat) (d : α) (h : l.length ≤ k) :
    l.getD k d = d := by
  rw [List.getD_eq_getElem?_getD, List.getElem?_eq_none (by simpa using h)]
  rfl

theorem nodeParents_length (j t n : Nat) : (nodeParents j t n).length = n := by
  simp [nodeParents]

theorem nodeParents_getD (j t n m : Nat) (h : m < n) :
    (nodeParents j t n).getD m 0 = if m = 0 then j else t + m - 1 := by
  simp [nodeParents, List.getD_eq_getElem?_getD, List.getElem?_map, List.getElem?_range, h]

theorem listGet_mem (l : List Nat) (i x : Nat) (h : listGet l i = some x) : x ∈ l := by
  induction l generalizing i with
  | nil => simp [listGet] at h
  | cons y l ih =>
    cases i with
    | zero =>
      simp [listGet] at h
      simp [h]
    | succ i =>
      simp [listGet] at h
      exact List.mem_cons_of_mem y (ih i h)

theorem parOK_append (base : Nat) (l e : List Nat) (hl : ParOK base l) (hp : 1 ≤ l.length)
    (he : ∀ m, m < e.length → base ≤ e.getD m 0 ∧ e.getD m 0 < base + l.length + m) :
    ParOK base (l ++ e) := by
  intro i hi
  rw [List.length_append] at hi
  by_cases hc : i < l.length
  · rw [getD_append_lt _ _ _ _ hc]
    exact hl i hc
  · have hi2 : i = l.length + (i - l.length) := by omega
    constructor
    · intro h0
      omega
    · intro _
      rw [hi2, getD_append_add]
      have := he (i - l.length) (by omega)
      omega

theorem segSpec_mono (p rL : ℚ) (base : Nat) (st1 st2 : CState) (sr : SegRec) (cb : Cable)
    (h : SegSpec p rL base st1 sr cb)
    (hm : st1.fcond.length ≤ st2.fcond.length)
    (hpre : ∀ i, i < st1.fcond.length → st2.fcond.getD i 0 = st1.fcond.getD i 0) :
    SegSpec p rL base st2 sr cb := by
  obtain ⟨h1, h2, h3, h4, h5⟩ := h
  refine ⟨h1, h2, h3, by omega, ?_⟩
  intro i hi
  rw [hpre _ (by omega)]
  exact h5 i hi

theorem stepHave_out (p rL : ℚ) (base : Nat) (st : CState) (cb : Cable) (j : Nat)
    (h : SInv base st) (hj1 : base ≤ j) (hj2 : j < st.next) :
    FoldOut p rL base st [cb] (stepHave p rL base st cb j) := by
  have hnext := h.hnext
  have hpos := h.hpos
  have hflen := h.hflen
  refine
    { inv := ?_
      monoPar := ?_
      monoF := ?_
      prePar := ?_
      preF := ?_
      segLen := ?_
      preSegs := ?_
      segNew := ?_ }
  · refine
      { hnext := ?_
        hpos := ?_
        hflen := ?_
        hpar := ?_
        hdist := ?_
        hsoma := ?_ }
    · simp [stepHave, nodeParents_length]
      omega
    · simp [stepHave]
      omega
    · simp [stepHave, nodeParents_length]
      omega
    · simp only [stepHave]
      refine parOK_append base _ _ h.hpar hpos ?_
      intro m hm
      rw [nodeParents_length] at hm
      rw [nodeParents_getD _ _ _ _ hm]
      split <;> omega
    · intro d hd
      simp only [stepHave] at hd ⊢
      rcases List.mem_append.mp hd with hd | hd
      · have := h.hdist d hd
        omega
      · simp at hd
        split at hd <;> omega
    · intro j0 hj0
      simp only [stepHave] at hj0 ⊢
      have := h.hsoma j0 hj0
      omega
  · simp [stepHave]
  · simp [stepHave]
  · intro i hi
    simp only [stepHave]
    exact getD_append_lt _ _ _ _ hi
  · intro i hi
    simp only [stepHave]
    exact getD_append_lt _ _ _ _ hi
  · simp [stepHave]
  · intro i hi
    simp only [stepHave]
    exact getD_append_lt _ _ _ _ hi
  · intro k hk
    simp only [List.length_singleton] at hk
    have hk0 : k = 0 := by omega
    subst hk0
    simp only [stepHave, Nat.add_zero, List.getD_cons_zero]
    rw [getD_append_len st.segs _ default]
    simp only [List.getD_cons_zero]
    dsimp only [SegSpec]
    refine ⟨rfl, rfl, by omega, ?_, ?_⟩
    · simp [List.length_append, List.length_replicate]
      omega
    · intro i hi
      have hidx : st.next + i - base = st.fcond.length + i := by omega
      rw [hidx, getD_append_add]
      exact getD_replicate_lt _ _ _ hi

theorem stepFresh_out (p rL : ℚ) (base : Nat) (st : CState) (cb : Cable)
    (h : SInv base st) :
    FoldOut p rL base st [cb] (stepFresh p rL base st cb) := by
  have hnext := h.hnext
  have hpos := h.hpos
  have hflen := h.hflen
  refine
    { inv := ?_
      monoPar := ?_
      monoF := ?_
      prePar := ?_
      preF := ?_
      segLen := ?_
      preSegs := ?_
      segNew := ?_ }
  · refine
      { hnext := ?_
        hpos := ?_
        hflen := ?_
        hpar := ?_
        hdist := ?_
        hsoma := ?_ }
    · simp [stepFresh, nodeParents_length]
      omega
    · simp [stepFresh]
      omega
    · simp [stepFresh, nodeParents_length]
      omega
    · simp only [stepFresh]
      refine parOK_append base _ _ h.hpar hpos ?_
      intro m hm
      simp only [List.length_cons, nodeParents_length] at hm
      cases m with
      | zero =>
        simp only [List.getD_cons_zero]
        omega
      | succ m =>
        rw [List.getD_cons_succ, nodeParents_getD _ _ _ _ (by omega)]
        split <;> omega
    · intro d hd
      simp only [stepFresh] at hd ⊢
      rcases List.mem_append.mp hd with hd | hd
      · have := h.hdist d hd
        omega
      · simp at hd
        omega
    · intro j0 hj0
      simp only [stepFresh] at hj0 ⊢
      split at hj0
      · have hj0e : st.next = j0 := by
          exact Option.some.inj hj0
        omega
      · have := h.hsoma j0 hj0
        omega
  · simp [stepFresh]
  · simp [stepFresh]
  · intro i hi
    simp only [stepFresh]
    exact getD_append_lt _ _ _ _ hi
  · intro i hi
    simp only [stepFresh]
    exact getD_append_lt _ _ _ _ hi
  · simp [stepFresh]
  · intro i hi
    simp only [stepFresh]
    exact getD_append_lt _ _ _ _ hi
  · intro k hk
    simp only [List.length_singleton] at hk
    have hk0 : k = 0 := by omega
    subst hk0
    simp only [stepFresh, Nat.add_zero, List.getD_cons_zero]
    rw [getD_append_len st.segs _ default]
    simp only [List.getD_cons_zero]
    dsimp only [SegSpec]
    refine ⟨rfl, by omega, by omega, ?_, ?_⟩
    · simp [List.length_append, List.length_cons, List.length_replicate]
      omega
    · intro i hi
      have hidx : st.next + 1 + i - base = st.fcond.length + (i + 1) := by omega
      rw [hidx, getD_append_add, List.getD_cons_succ]
      exact getD_replicate_lt _ _ _ hi

theorem step_out (p rL : ℚ) (base : Nat) (st : CState) (cb : Cable) (h : SInv base st) :
    FoldOut p rL base st [cb] (stepCable p rL base st cb) := by
  cases hj : junctionOf st cb with
  | some j =>
    have hjb : base ≤ j ∧ j < st.next := by
      unfold junctionOf at hj
      split at hj
      · exact h.hsoma j hj
      · exact h.hdist j (listGet_mem _ _ _ hj)
    rw [stepCable, hj]
    exact stepHave_out p rL base st cb j h hjb.1 hjb.2
  | none =>
    rw [stepCable, hj]
    exact stepFresh_out p rL base st cb h

theorem foldOut_nil (p rL : ℚ) (base : Nat) (st : CState) (h : SInv base st) :
    FoldOut p rL base st [] st := by
  refine
    { inv := h
      monoPar := le_refl _
      monoF := le_refl _
      prePar := fun i _ => rfl
      preF := fun i _ => rfl
      segLen := by simp
      preSegs := fun i _ => rfl
      segNew := fun k hk => by simp at hk }

theorem foldOut_comp (p rL : ℚ) (base : Nat) (st st1 st2 : CState) (cb : Cable)
    (l : List Cable) (h1 : FoldOut p rL base st [cb] st1)
    (h2 : FoldOut p rL base st1 l st2) :
    FoldOut p rL base st (cb :: l) st2 := by
  have hseg1 : st1.segs.length = st.segs.length + 1 := by
    have := h1.segLen
    simpa using this
  have hmp := h1.monoPar
  have hmf := h1.monoF
  refine
    { inv := h2.inv
      monoPar := le_trans h1.monoPar h2.monoPar
      monoF := le_trans h1.monoF h2.monoF
      prePar := ?_
      preF := ?_
      segLen := ?_
      preSegs := ?_
      segNew := ?_ }
  · intro i hi
    rw [h2.prePar i (by omega), h1.prePar i hi]
  · intro i hi
    rw [h2.preF i (by omega), h1.preF i hi]
  · have := h2.segLen
    simp only [List.length_cons]
    omega
  · intro i hi
    rw [h2.preSegs i (by omega), h1.preSegs i hi]
  · intro k hk
    cases k with
    | zero =>
      have hs := h1.segNew 0 (by simp)
      simp only [Nat.add_zero, List.getD_cons_zero] at hs ⊢
      rw [h2.preSegs st.segs.length (by omega)]
      exact segSpec_mono p rL base st1 st2 _ _ hs h2.monoF h2.preF
    | succ k =>
      simp only [List.length_cons] at hk
      have hs := h2.segNew k (by omega)
      have hidx : st.segs.length + (k + 1) = st1.segs.length + k := by omega
      rw [hidx, List.getD_cons_succ]
      exact hs

theorem discCables_out (p rL : ℚ) (base : Nat) (l : List Cable) :
    ∀ (st : CState), SInv base st → FoldOut p rL base st l (discCables p rL base st l) := by
  induction l with
  | nil =>
    intro st h
    exact foldOut_nil p rL base st h
  | cons cb l ih =>
    intro st h
    have h1 := step_out p rL base st cb h
    have h2 := ih (stepCable p rL base st cb) h1.inv
    exact foldOut_comp p rL base st _ _ cb l h1 h2

theorem initCell_inv (p : ℚ) (base : Nat) (cd : CellD) : SInv base (initCell p base cd) := by
  refine
    { hnext := by simp [initCell]
      hpos := by simp [initCell]
      hflen := by simp [initCell]
      hpar := ?_
      hdist := by simp [initCell]
      hsoma := by simp [initCell] }
  intro i hi
  simp only [initCell, List.length_singleton] at hi
  have : i = 0 := by omega
  subst this
  simp [initCell]

theorem discretizeCell_out (p : ℚ) (base : Nat) (cd : CellD) :
    FoldOut p cd.rL base (initCell p base cd) cd.cables (discretizeCell p base cd) :=
  discCables_out p cd.rL base cd.cables (initCell p base cd) (initCell_inv p base cd)

theorem getD_append_off {α : Type} (l1 l2 : List α) (d : α) (i : Nat) (h : l1.length ≤ i) :
    (l1 ++ l2).getD i d = l2.getD (i - l1.length) d := by
  have hi : i = l1.length + (i - l1.length) := by omega
  rw [hi, getD_append_add]
  congr 1
  omega

theorem cellSegInfo_length (cd : CellD) : (cellSegInfo cd).length = 1 + cd.cables.length := by
  simp [cellSegInfo]
  omega

theorem addCell_out (p : ℚ) (acc : Disc) (cd : CellD) (h : DiscOK acc) :
    GOut p acc [cd] (addCell p acc cd) := by
  have F := discretizeCell_out p acc.ncv cd
  have hnext := F.inv.hnext
  have hpos := F.inv.hpos
  have hflen := F.inv.hflen
  have hp := h.hp
  have hf := h.hf
  have hsegs : (discretizeCell p acc.ncv cd).segs.length = 1 + cd.cables.length := by
    have hl := F.segLen
    simp [initCell] at hl
    omega
  refine
    { ok := ?_
      mono := ?_
      monoPar := ?_
      monoF := ?_
      monoSegs := ?_
      prePar := ?_
      preF := ?_
      segLen := ?_
      preSegs := ?_
      starts := ?_
      parOk := ?_
      segOk := ?_ }
  · refine ⟨?_, ?_, ?_⟩
    · simp only [addCell, List.length_append]
      omega
    · simp only [addCell, List.length_append]
      omega
    · intro x hx
      simp only [addCell] at hx ⊢
      rcases List.mem_append.mp hx with hx | hx
      · have := h.hs x hx
        omega
      · have hx2 : x = acc.ncv := by simpa using hx
        omega
  · simp only [addCell]
    omega
  · simp only [addCell, List.length_append]
    omega
  · simp only [addCell, List.length_append]
    omega
  · simp only [addCell, List.length_append]
    omega
  · intro i hi
    simp only [addCell]
    exact getD_append_lt _ _ _ _ hi
  · intro i hi
    simp only [addCell]
    exact getD_append_lt _ _ _ _ hi
  · simp only [addCell, List.length_append, cellsSegInfo, cellSegInfo_length]
    simp [cellSegInfo]
    omega
  · intro i hi
    simp only [addCell]
    exact getD_append_lt _ _ _ _ hi
  · refine ⟨[acc.ncv], by simp [addCell], ?_⟩
    intro x hx
    have hx2 : x = acc.ncv := by simpa using hx
    simp only [addCell]
    omega
  · intro c hc1 hc2
    simp only [addCell] at hc2 ⊢
    obtain ⟨i, hieq, hilt⟩ : ∃ i, c = acc.ncv + i ∧ i < (discretizeCell p acc.ncv cd).par.length :=
      ⟨c - acc.ncv, by omega, by omega⟩
    subst hieq
    have hval : (acc.parent_cv ++ (discretizeCell p acc.ncv cd).par).getD (acc.ncv + i) 0
        = (discretizeCell p acc.ncv cd).par.getD i 0 := by
      rw [show acc.ncv + i = acc.parent_cv.length + i by omega, getD_append_add]
    rw [hval]
    have hP := F.inv.hpar i hilt
    by_cases hi0 : i = 0
    · subst hi0
      rw [hP.1 rfl]
      refine ⟨by omega, ?_, ?_⟩
      · intro _
        simp
      · intro _
        omega
    · have hB := hP.2 (by omega)
      refine ⟨by omega, ?_, ?_⟩
      · intro he
        omega
      · intro hmem
        exfalso
        rcases List.mem_append.mp hmem with hm | hm
        · have := h.hs _ hm
          omega
        · have hm2 : acc.ncv + i = acc.ncv := by simpa using hm
          omega
  · intro k rl cb hk
    simp only [cellsSegInfo, List.append_nil, cellSegInfo] at hk
    cases k with
    | zero => simp at hk
    | succ k2 =>
      rw [List.getD_cons_succ] at hk
      by_cases hlt : k2 < cd.cables.length
      · rw [getD_map_lt _ _ _ _ hlt] at hk
        have hk2 := Option.some.inj hk
        have hrl : cd.rL = rl := congrArg Prod.fst hk2
        have hcb : cd.cables.getD k2 default = cb := congrArg Prod.snd hk2
        subst hrl
        subst hcb
        simp only [addCell]
        rw [getD_append_add acc.segments _ default (k2 + 1)]
        have hSS := F.segNew k2 hlt
        have hidx : (initCell p acc.ncv cd).segs.length + k2 = k2 + 1 := by
          simp [initCell]
          omega
        rw [hidx] at hSS
        obtain ⟨hs1, hs2, hs3, hs4, hs5⟩ := hSS
        refine ⟨hs2, by omega, ?_⟩
        intro i hi
        have hix : ((discretizeCell p acc.ncv cd).segs.getD (k2 + 1) default).cvStart + i
            = acc.face_conductance.length
              + (((discretizeCell p acc.ncv cd).segs.getD (k2 + 1) default).cvStart + i
                  - acc.ncv) := by
          omega
        rw [hix, getD_append_add]
        have hix2 : ((discretizeCell p acc.ncv cd).segs.getD (k2 + 1) default).cvStart + i
            - acc.ncv
            = ((discretizeCell p acc.ncv cd).segs.getD (k2 + 1) default).cvStart + i
              - acc.ncv := rfl
        exact hs5 i hi
      · rw [getD_ge _ _ _ (by simpa using hlt)] at hk
        simp at hk

theorem gOut_nil (p : ℚ) (acc : Disc) (h : DiscOK acc) : GOut p acc [] acc := by
  refine
    { ok := h
      mono := le_refl _
      monoPar := le_refl _
      monoF := le_refl _
      monoSegs := le_refl _
      prePar := fun i _ => rfl
      preF := fun i _ => rfl
      segLen := by simp [cellsSegInfo]
      preSegs := fun i _ => rfl
      starts := ⟨[], by simp, by simp⟩
      parOk := fun c h1 h2 => absurd h2 (by omega)
      segOk := fun k rl cb hk => by simp [cellsSegInfo] at hk }

theorem gOut_comp (p : ℚ) (acc acc1 D : Disc) (cd : CellD) (rest : List CellD)
    (h1 : GOut p acc [cd] acc1) (h2 : GOut p acc1 rest D) :
    GOut p acc (cd :: rest) D := by
  have hseg1 : acc1.segments.length = acc.segments.length + (1 + cd.cables.length) := by
    have hl := h1.segLen
    simp only [cellsSegInfo, List.append_nil, cellSegInfo_length] at hl
    omega
  have hop := h1.ok.hp
  have hof := h1.ok.hf
  have hm1 := h1.mono
  have hm2 := h2.mono
  have hmp1 := h1.monoPar
  have hmf1 := h1.monoF
  have hms1 := h1.monoSegs
  refine
    { ok := h2.ok
      mono := le_trans h1.mono h2.mono
      monoPar := le_trans h1.monoPar h2.monoPar
      monoF := le_trans h1.monoF h2.monoF
      monoSegs := le_trans h1.monoSegs h2.monoSegs
      prePar := ?_
      preF := ?_
      segLen := ?_
      preSegs := ?_
      starts := ?_
      parOk := ?_
      segOk := ?_ }
  · intro i hi
    rw [h2.prePar i (by omega), h1.prePar i hi]
  · intro i hi
    rw [h2.preF i (by omega), h1.preF i hi]
  · have ha := h2.segLen
    simp only [cellsSegInfo, List.length_append, cellSegInfo_length]
    omega
  · intro i hi
    rw [h2.preSegs i (by omega), h1.preSegs i hi]
  · obtain ⟨t1, ht1, hb1⟩ := h1.starts
    obtain ⟨t2, ht2, hb2⟩ := h2.starts
    refine ⟨t1 ++ t2, by rw [ht2, ht1, List.append_assoc], ?_⟩
    intro x hx
    rcases List.mem_append.mp hx with hx | hx
    · have := hb1 x hx
      omega
    · have := hb2 x hx
      omega
  · intro c hc1 hc2
    by_cases hcc : c < acc1.ncv
    · have hP := h1.parOk c hc1 hcc
      obtain ⟨t2, ht2, hb2⟩ := h2.starts
      rw [h2.prePar c (by omega)]
      refine ⟨hP.1, ?_⟩
      rw [hP.2, ht2]
      constructor
      · intro hm
        exact List.mem_append_left _ hm
      · intro hm
        rcases List.mem_append.mp hm with hm | hm
        · exact hm
        · exact absurd (hb2 c hm).1 (by omega)
    · exact h2.parOk c (by omega) hc2
  · intro k rl cb hk
    simp only [cellsSegInfo] at hk
    by_cases hks : k < 1 + cd.cables.length
    · have hk2 : (cellsSegInfo [cd]).getD k none = some (rl, cb) := by
        rw [getD_append_lt _ _ _ _ (by rw [cellSegInfo_length]; omega)] at hk
        simpa [cellsSegInfo] using hk
      have hs1 := h1.segOk k rl cb hk2
      have hrec : D.segments.getD (acc.segments.length + k) default
          = acc1.segments.getD (acc.segments.length + k) default :=
        h2.preSegs _ (by omega)
      rw [hrec]
      obtain ⟨ha, hb, hc⟩ := hs1
      refine ⟨ha, by omega, ?_⟩
      intro i hi
      rw [h2.preF _ (by omega)]
      exact hc i hi
    · obtain ⟨k3, hk3⟩ : ∃ k3, k = (1 + cd.cables.length) + k3 :=
        ⟨k - (1 + cd.cables.length), by omega⟩
      subst hk3
      have hk2 : (cellsSegInfo rest).getD k3 none = some (rl, cb) := by
        rw [getD_append_off _ _ _ _ (by rw [cellSegInfo_length]; omega),
          cellSegInfo_length] at hk
        have hk4 : 1 + cd.cables.length + k3 - (1 + cd.cables.length) = k3 := by omega
        rw [hk4] at hk
        exact hk
      have hs2 := h2.segOk k3 rl cb hk2
      have hidx : acc.segments.length + (1 + cd.cables.length + k3)
          = acc1.segments.length + k3 := by
        omega
      rw [hidx]
      exact hs2

theorem foldCells_out (p : ℚ) :
    ∀ (cells : List CellD) (acc : Disc), DiscOK acc →
      GOut p acc cells (List.foldl (addCell p) acc cells) := by
  intro cells
  induction cells with
  | nil =>
    intro acc h
    exact gOut_nil p acc h
  | cons cd rest ih =>
    intro acc h
    have h1 := addCell_out p acc cd h
    have h2 := ih (addCell p acc cd) h1.ok
    exact gOut_comp p acc (addCell p acc cd) _ cd rest h1 h2

theorem emptyDisc_ok : DiscOK emptyDisc := by
  refine ⟨rfl, rfl, ?_⟩
  intro x hx
  simp [emptyDisc] at hx

theorem fvm_discretize_out (p : ℚ) (cells : List CellD) :
    GOut p emptyDisc cells (fvm_discretize p cells) :=
  foldCells_out p cells emptyDisc emptyDisc_ok

end Arbor

namespace Arbor

/-- Claim C1: for the two-cell system of scenario S2 (cell A: soma plus
one 200-µm cable of 4 compartments; cell B: soma plus three 4-compartment
cables meeting at a branch point), `fvm_discretize` produces exactly 20
CVs with `parent_cv = [0,0,1,2,3,4,6,6,7,8,9,10,11,12,13,14,11,16,17,18]`,
and the per-segment records give `segments[3].parent_cv = 7` and
`segments[4].parent_cv = segments[5].parent_cv = 11`. -/
theorem claim_C1 :
    (fvm_discretize piQ [cellA, cellB]).ncv = 20 ∧
    (fvm_discretize piQ [cellA, cellB]).parent_cv
      = [0, 0, 1, 2, 3, 4, 6, 6, 7, 8, 9, 10, 11, 12, 13, 14, 11, 16, 17, 18] ∧
    ((fvm_discretize piQ [cellA, cellB]).segments.getD 3 default).parent_cv = 7 ∧
    ((fvm_discretize piQ [cellA, cellB]).segments.getD 4 default).parent_cv = 11 ∧
    ((fvm_discretize piQ [cellA, cellB]).segments.getD 5 default).parent_cv = 11 := by
  decide

/-- Claim C2: building mechanism data with `coalesce_synapses = true` for
the placement list of scenario S4 yields exactly three `expsyn` entries
`{cv=2, multiplicity=4, e=0}`, `{cv=2, multiplicity=1, e=0.1}` and
`{cv=4, multiplicity=1, e=0.1}`, with `target` partitioned into the
sorted runs `{0,1,2,3}`, `{4}`, `{5}` matching the multiplicities — only
placements agreeing in CV, mechanism name and all parameter values are
grouped. -/
theorem claim_C2 :
    fvm_point_mechanism true (fvm_discretize piQ [cellA]) plS4 ("expsyn")
      = [⟨2, [0, 1, 2, 3], [(("e"), 0), (("tau"), 1/5)]⟩,
         ⟨2, [4], [(("e"), 1/10), (("tau"), 1/5)]⟩,
         ⟨4, [5], [(("e"), 1/10), (("tau"), 1/5)]⟩] ∧
    (fvm_point_mechanism true (fvm_discretize piQ [cellA]) plS4 ("expsyn")).map multiplicity
      = [4, 1, 1] := by
  decide

/-- Claim C3: for a cell whose three dendrites of 4 compartments each
meet at a junction, with painted specific membrane capacitances 0.017,
0.013 and 0.018 F/m², the capacitance of the junction CV (CV 5 of cell B
alone) equals `A1/8·0.017 + A2/8·0.013 + A3/8·0.018`, where `Ai` is the
lateral area of dendrite `i` — each contributing half-compartment
contributes its area times the capacitance painted on its own segment
(exact equality in the rational model, hence within float tolerance). -/
theorem claim_C3 :
    (fvm_discretize piQ [cellB]).cv_capacitance.getD 5 0
      = latArea piQ (1/2) 200 / 8 * (17/1000)
        + latArea piQ (2/5) 300 / 8 * (13/1000)
        + latArea piQ (7/20) 180 / 8 * (18/1000) := by
  decide

/-- Claim C4: for every CV `c` owned by a uniform-diameter cable segment
`s` (in particular every interior CV) of any valid input, the
discretization's `face_conductance[c]` equals
`π r² / (h · rL) · 100` with `r` the cable radius, `h = len/ncomp` the
centre-to-centre compartment spacing and `rL` the axial resistivity. -/
theorem claim_C4 (p : ℚ) (cells : List CellD) (_hv : validCells cells = true)
    (s : Nat) (rl : ℚ) (cb : Cable)
    (hs : (cellsSegInfo cells).getD s none = some (rl, cb))
    (c : Nat)
    (h1 : ((fvm_discretize p cells).segments.getD s default).cvStart ≤ c)
    (h2 : c < ((fvm_discretize p cells).segments.getD s default).cvEnd) :
    (fvm_discretize p cells).face_conductance.getD c 0
      = p * cb.radius ^ 2 / (cb.len / (cb.ncomp : ℚ) * rl) * 100 := by
  have g := (fvm_discretize_out p cells).segOk s rl cb hs
  simp only [emptyDisc, List.length_nil, Nat.zero_add] at g
  obtain ⟨ha, hb, hval⟩ := g
  obtain ⟨i, hieq, hilt⟩ :
      ∃ i, c = ((fvm_discretize p cells).segments.getD s default).cvStart + i ∧
        i < cb.ncomp :=
    ⟨c - ((fvm_discretize p cells).segments.getD s default).cvStart, by omega, by omega⟩
  subst hieq
  have hfin := hval i hilt
  simpa [faceG] using hfin

theorem claim_C4_witness :
    (fvm_discretize piQ [cellA]).face_conductance.getD 2 0
      = piQ * cableA.radius ^ 2 / (cableA.len / (cableA.ncomp : ℚ) * 100) * 100 :=
  claim_C4 piQ [cellA] (by decide) 1 100 cableA (by decide) 2 (by decide) (by decide)

/-- Claim C5: scenario S6 — mechanism `write_eb_ec` writes the reversal
potentials of ions `b` and `c`; assigning it as
`reversal_potential_method` for only the strict subset `{b}` makes the
build fail with `revpot_mismatch`, while the consistent assignment for
both ions instantiates it exactly on the CVs where some other mechanism
reads a corresponding reversal potential: the soma CV of cell 1 only. -/
theorem claim_C5 :
    fvm_build_revpot writesS6 [rcell0, rcell1bad] ("write_eb_ec")
      = Except.error BuildErr.revpot_mismatch ∧
    fvm_build_revpot writesS6 [rcell0, rcell1good] ("write_eb_ec")
      = Except.ok [(fvm_discretize piQ [cellS6, cellS6]).cellStart.getD 1 0] := by
  exact ⟨rfl, rfl⟩

/-- Claim C6: for a mechanism declaring chloride with expected valence
−1, the mechanism-data build fails with `unknown_ion` when chloride is
absent from the global ion species, fails with `ion_valence_mismatch`
when chloride is registered with valence −2, and succeeds when chloride
is registered with valence −1. -/
theorem claim_C6 :
    verifyIonUsage [] [(("cl"), some (-1))] = some BuildErr.unknown_ion ∧
    verifyIonUsage [(("cl"), -2)] [(("cl"), some (-1))]
      = some BuildErr.ion_valence_mismatch ∧
    verifyIonUsage [(("cl"), -1)] [(("cl"), some (-1))] = none := by
  decide

/-- Claim C7: rerooting the tree with parent array `[0,0,0,1,1,4,4]` at
node 1 via `change_root` produces a tree that still has 7 nodes, whose
new root (index 0) has exactly 3 children, and in which the node formerly
at index 4 (after renumbering) has exactly 2 children; the total node
count is invariant under `change_root`. -/
theorem claim_C7 :
    Tree.num_nodes (Tree.change_root Tree.exTree 1) = 7 ∧
    Tree.num_children (Tree.change_root Tree.exTree 1) 0 = 3 ∧
    Tree.num_children (Tree.change_root Tree.exTree 1) (Tree.newIdx Tree.exTree 1 4) = 2 ∧
    ∀ (par : List Nat) (j : Nat),
      Tree.num_nodes (Tree.change_root par j) = Tree.num_nodes par := by
  refine ⟨by decide, by decide, by decide, ?_⟩
  intro par j
  simp [Tree.num_nodes, Tree.change_root]

/-- Claim C8: for every valid input to `fvm_discretize` and every CV
index `c`, `parent_cv[c] ≤ c`, with equality exactly when `c` is the
first CV of its cell (the soma CV). -/
theorem claim_C8 (p : ℚ) (cells : List CellD) (_hv : validCells cells = true) (c : Nat)
    (hc : c < (fvm_discretize p cells).ncv) :
    (fvm_discretize p cells).parent_cv.getD c 0 ≤ c ∧
    ((fvm_discretize p cells).parent_cv.getD c 0 = c ↔
      c ∈ (fvm_discretize p cells).cellStart) :=
  (fvm_discretize_out p cells).parOk c (Nat.zero_le c) hc

theorem claim_C8_witness :
    (fvm_discretize piQ [cellA]).parent_cv.getD 3 0 ≤ 3 ∧
    ((fvm_discretize piQ [cellA]).parent_cv.getD 3 0 = 3 ↔
      3 ∈ (fvm_discretize piQ [cellA]).cellStart) :=
  claim_C8 piQ [cellA] (by decide) 3 (by decide)

/-- Claim C9: the `cell_tree` constructor collapses unbranched runs of
nodes into single segments, so segment counts reflect branches, not
input nodes: parent array `[0,0,1,2,0,4]` yields 3 segments with the root
having 2 children that are both leaves, and `[0,0,1,2,0,4,0,6,7,8]`
yields 4 segments with the root having 3 leaf children. -/
theorem claim_C9 :
    CellTree.num_segments CellTree.parC9a = 3 ∧
    CellTree.num_children CellTree.parC9a 0 = 2 ∧
    CellTree.num_children CellTree.parC9a 1 = 0 ∧
    CellTree.num_children CellTree.parC9a 2 = 0 ∧
    CellTree.num_segments CellTree.parC9b = 4 ∧
    CellTree.num_children CellTree.parC9b 0 = 3 ∧
    CellTree.num_children CellTree.parC9b 1 = 0 ∧
    CellTree.num_children CellTree.parC9b 2 = 0 ∧
    CellTree.num_children CellTree.parC9b 3 = 0 := by
  decide

/-- Claim C10: for every cell and every parent index
`p ≥ num_segments()`, `cell::add_cable` throws `std::out_of_range`
before appending anything, leaving the segment list and the parent array
unchanged (the range check precedes both `push_back` calls). -/
theorem claim_C10 (c : NM.MCell) (parent : Int) (h : NM.num_segments c ≤ parent) :
    NM.add_cable c parent = (some NM.CellErr.out_of_range, c) := by
  simp [NM.add_cable, h]

theorem claim_C10_witness :
    NM.add_cable ⟨[0], [NM.SegKind.soma]⟩ 5
      = (some NM.CellErr.out_of_range, ⟨[0], [NM.SegKind.soma]⟩) :=
  claim_C10 ⟨[0], [NM.SegKind.soma]⟩ 5 (by decide)

end Arbor
